import Mathlib

/-!
Verification of the particle-bounce-house core: cubic-Bezier curve solver,
scale lookup table (LUT), distance field, and focal-center animator,
shallowly embedded from the TypeScript source (src/App.tsx and the unnamed
variants).  Rational arithmetic of the source is embedded over ℚ; the
transcendental parts (Euclidean distance, sin/cos orbits, exponential
weight smoothing) over ℝ.
-/

namespace PBH

/-- Constant `LUT_SIZE = 256` from the source. -/
def LUT_SIZE : ℕ := 256

/-- Constant `MAX_ENGINE_CENTERS = 3` from the source. -/
def MAX_ENGINE_CENTERS : ℕ := 3

/-- Source helper `clamp01 = (v) => Math.min(1, Math.max(0, v))`. -/
def clamp01 (v : ℚ) : ℚ := min 1 (max 0 v)

/-- Source function `cubicBezierCoord(t, p0, p1, p2, p3)`: power-basis
evaluation of one coordinate of a cubic Bezier. -/
def cubicBezierCoord (t p0 p1 p2 p3 : ℚ) : ℚ :=
  let cx := 3 * (p1 - p0)
  let bx := 3 * (p2 - p1) - cx
  let ax := p3 - p0 - cx - bx
  ax * t ^ 3 + bx * t ^ 2 + cx * t + p0

/-- The mutable loop state of the bisection in `sampleBezierY`:
`low`, `high`, `t` and whether the loop has hit `break`. -/
structure BisectState where
  low : ℚ
  high : ℚ
  t : ℚ
  done : Bool

/-- One iteration of the `for (let i = 0; i < 24; i++)` loop of
`sampleBezierY`; a state with `done = true` models having left the loop
via `break`. -/
def bisectStep (p1x p2x targetX : ℚ) (s : BisectState) : BisectState :=
  if s.done then s
  else
    let mid := (s.low + s.high) / 2
    let x := cubicBezierCoord mid 0 p1x p2x 1
    if |x - targetX| < 1 / 10000 then ⟨s.low, s.high, mid, true⟩
    else if x < targetX then ⟨mid, s.high, mid, false⟩
    else ⟨s.low, mid, mid, false⟩

/-- Running `n` iterations of the bisection loop. -/
def bisectIter (p1x p2x targetX : ℚ) : ℕ → BisectState → BisectState
  | 0, s => s
  | n + 1, s => bisectIter p1x p2x targetX n (bisectStep p1x p2x targetX s)

/-- The parametric `t` the 24-iteration bisection of `sampleBezierY`
settles on for a clamped target x. -/
def solveT (p1x p2x targetX : ℚ) : ℚ :=
  (bisectIter p1x p2x targetX 24 ⟨0, 1, targetX, false⟩).t

/-- Source function `sampleBezierY(u, p1x, p1y, p2x, p2y, startY, endY)`:
invert the Bezier x-coordinate by bisection, then evaluate the
y-coordinate at the found parameter. -/
def sampleBezierY (u p1x p1y p2x p2y startY endY : ℚ) : ℚ :=
  cubicBezierCoord (solveT p1x p2x (clamp01 u)) startY p1y p2y endY

/-- Source function `generateScaleLUT(p1x, p1y, p2x, p2y, isReversed, minScale, maxScale)`: a 256-entry table mapping normalized distance to scale. -/
def generateScaleLUT (p1x p1y p2x p2y : ℚ) (isRev : Bool)
    (minScale maxScale : ℚ) : List ℚ :=
  let startY : ℚ := if isRev then 0 else 1
  let endY : ℚ := if isRev then 1 else 0
  (List.range LUT_SIZE).map (fun i : ℕ =>
    let t := (i : ℚ) / ((LUT_SIZE : ℚ) - 1)
    minScale + sampleBezierY t p1x p1y p2x p2y startY endY * (maxScale - minScale))

/-! ## Distance field (InstancedSpheres.useFrame, unnamed/part_000 lines 743-774) -/

/-- A 3-component vector, as THREE.Vector3 restricted to what the core uses. -/
structure Vec3 where
  x : ℝ
  y : ℝ
  z : ℝ

/-- Method `a.distanceTo(b)` of THREE.Vector3: Euclidean distance. -/
noncomputable def dist3 (a b : Vec3) : ℝ :=
  Real.sqrt ((a.x - b.x) ^ 2 + (a.y - b.y) ^ 2 + (a.z - b.z) ^ 2)

/-- One pass of the inner `for (c …)` loop body of the distance field:
skip centers with weight `< 0.001`, otherwise fold in the weight-adjusted
distance if it improves the running minimum.  The JS `dist = Infinity`
sentinel is modelled by `none`. -/
noncomputable def distStep (pos : Vec3) (centers : List Vec3) (weights : List ℝ)
    (acc : Option ℝ) (c : ℕ) : Option ℝ :=
  let w := weights.getD c 1
  if w < 1 / 1000 then acc
  else
    let d := dist3 pos (centers.getD c ⟨0, 0, 0⟩) / w
    match acc with
    | none => some d
    | some d0 => if d < d0 then some d else some d0

/-- The effective distance of the source loop: running minimum of
`pos.distanceTo(center[c]) / w` over `c < min(length, MAX_ENGINE_CENTERS)`
with centers of weight `< 0.001` skipped; `none` models `Infinity`. -/
noncomputable def effectiveDist (pos : Vec3) (centers : List Vec3)
    (weights : List ℝ) : Option ℝ :=
  (List.range (min centers.length MAX_ENGINE_CENTERS)).foldl
    (distStep pos centers weights) none

/-- Normalized distance `t = Math.min(1, dist / maxDist)`; with `dist = Infinity` (modelled
`none`) the JS expression evaluates to `1`. -/
noncomputable def normalizedT (pos : Vec3) (centers : List Vec3)
    (weights : List ℝ) (maxDist : ℝ) : ℝ :=
  match effectiveDist pos centers weights with
  | none => 1
  | some d => min 1 (d / maxDist)

/-- Lookup `lut[idx] || minScale`: an out-of-bounds access yields `undefined` and a
zero entry is falsy, so both fall back to `minScale`. -/
noncomputable def lutScale (lut : List ℝ) (minScale : ℝ) (idx : ℤ) : ℝ :=
  if 0 ≤ idx ∧ idx.toNat < lut.length then
    if lut.getD idx.toNat 0 = 0 then minScale else lut.getD idx.toNat 0
  else minScale

/-- Scale `finalScale` of one grid element:
`idx = Math.floor(t * (LUT_SIZE - 1)); finalScale = lut[idx] || minScale`. -/
noncomputable def elementScale (pos : Vec3) (centers : List Vec3)
    (weights : List ℝ) (maxDist : ℝ) (lut : List ℝ) (minScale : ℝ) : ℝ :=
  lutScale lut minScale
    ⌊normalizedT pos centers weights maxDist * ((LUT_SIZE : ℝ) - 1)⌋

/-- An RGB color, as THREE.Color restricted to what the core uses. -/
@[ext]
structure ColorRGB where
  r : ℝ
  g : ℝ
  b : ℝ

/-- Method `THREE.Color.lerp(target, alpha)`: per component
`this.r += (color.r - this.r) * alpha`. -/
def colorLerp (c target : ColorRGB) (alpha : ℝ) : ColorRGB :=
  ⟨c.r + (target.r - c.r) * alpha,
   c.g + (target.g - c.g) * alpha,
   c.b + (target.b - c.b) * alpha⟩

/-- The per-element color of the instanced distance field:
`tempColor.copy(tintColor).lerp(tintColor2, t)` with the same `t` as the
scale path. -/
noncomputable def elementColor (pos : Vec3) (centers : List Vec3)
    (weights : List ℝ) (maxDist : ℝ) (tintColor tintColor2 : ColorRGB) : ColorRGB :=
  colorLerp tintColor tintColor2 (normalizedT pos centers weights maxDist)

/-- Spec-side rendering of §4.4 for comparison with `effectiveDist`
("the minimum, over the centers whose weight is at least the epsilon
0.001, of the Euclidean distance … divided by that center's weight"):
the minimum of a list of adjusted distances, `none` when empty. -/
noncomputable def listMinR : List ℝ → Option ℝ
  | [] => none
  | d :: rest =>
    match listMinR rest with
    | none => some d
    | some m => some (min d m)

/-- Spec-side effective distance over explicit (center, weight) pairs. -/
noncomputable def specEffectiveDist (pos : Vec3) (cws : List (Vec3 × ℝ)) : Option ℝ :=
  listMinR ((cws.filter (fun cw => decide ((1 : ℝ) / 1000 ≤ cw.2))).map
    (fun cw => dist3 pos cw.1 / cw.2))

/-! ## Focal-center animator (SceneContent.useFrame, unnamed/part_000 lines 891-936) -/

/-- Helper `THREE.MathUtils.lerp(x, y, t) = (1 - t) * x + t * y`. -/
def mathLerp (x y t : ℝ) : ℝ := (1 - t) * x + t * y

/-- Constant `GRID_SIZE = 12`. -/
def GRID_SIZE : ℝ := 12

/-- Constant `INITIAL_SPACING = 1.2`. -/
def INITIAL_SPACING : ℝ := 1.2

/-- Per-center random phase/jitter state (`phaseRef`), seeded at creation:
phases in `[0, 2π)`, amplitude jitter in `[0.6, 1.4)`, frequency jitter in
`[1, 1.3)`. -/
structure PhaseData where
  px : ℝ
  py : ℝ
  pz : ℝ
  ampX : ℝ
  ampY : ℝ
  ampZ : ℝ
  freqX : ℝ
  freqY : ℝ
  freqZ : ℝ

/-- The position the animator writes to `focalPointsRef.current[i]` at
accumulated time `t`, with smoothed randomness `randNorm ∈ [0,1]`
(`smoothRandomness / 100`) and the configurable bounds scale. -/
noncomputable def centerPosition (i : ℕ) (ph : PhaseData)
    (t randNorm boundScale : ℝ) : Vec3 :=
  let baseBound := GRID_SIZE * INITIAL_SPACING / 2
  let bound := baseBound * boundScale
  let freq : ℝ := 0.2
  let freqJitterX := (1.0 + (i : ℝ) * 0.1) * mathLerp 1 ph.freqX randNorm
  let freqJitterY := (1.35 + (i : ℝ) * 0.1) * mathLerp 1 ph.freqY randNorm
  let freqJitterZ := (0.8 + (i : ℝ) * 0.08) * mathLerp 1 ph.freqZ randNorm
  let ampJitterX := mathLerp 1 ph.ampX randNorm
  let ampJitterY := mathLerp 1 ph.ampY randNorm
  let ampJitterZ := mathLerp 1 ph.ampZ randNorm
  ⟨Real.sin (t * freq * freqJitterX + ph.px) * bound * ampJitterX,
   Real.sin (t * freq * freqJitterY + ph.py) * bound * 0.85 * ampJitterY,
   Real.cos (t * freq * freqJitterZ + ph.pz) * bound * ampJitterZ⟩

/-- One weight-smoothing tick:
`weight = THREE.MathUtils.lerp(current, target, 1 - Math.exp(-delta * 6))`. -/
noncomputable def weightTick (current target delta : ℝ) : ℝ :=
  mathLerp current target (1 - Real.exp (-delta * 6))

/-- The smoothed weight after a sequence of ticks of durations `deltas`
chasing the constant target `1`, starting from `w0`. -/
noncomputable def weightAfter (w0 : ℝ) (deltas : List ℝ) : ℝ :=
  deltas.foldl (fun w delta => weightTick w 1 delta) w0

/-- The distance-field inner loop body rephrased on explicit
(center, weight) pairs; used to relate `effectiveDist` to
`specEffectiveDist`. -/
noncomputable def pairStep (pos : Vec3) (acc : Option ℝ) (cw : Vec3 × ℝ) : Option ℝ :=
  if cw.2 < 1 / 1000 then acc
  else
    let d := dist3 pos cw.1 / cw.2
    match acc with
    | none => some d
    | some d0 => if d < d0 then some d else some d0

/-- Combination of two optional minima (`none` is the neutral element). -/
noncomputable def ominO : Option ℝ → Option ℝ → Option ℝ
  | a, none => a
  | none, some d => some d
  | some d0, some d => some (min d0 d)

/-- State invariant of the bisection loop: the bracket stays inside `[0,1]`
and the candidate parameter does too. -/
def BisectInv (s : BisectState) : Prop :=
  0 ≤ s.low ∧ s.low ≤ s.high ∧ s.high ≤ 1 ∧ 0 ≤ s.t ∧ s.t ≤ 1

/-! ## Curve solver: basic lemmas -/

theorem cubic_bernstein (t p0 p1 p2 p3 : ℚ) :
    cubicBezierCoord t p0 p1 p2 p3 =
      (1 - t) ^ 3 * p0 + 3 * t * (1 - t) ^ 2 * p1 + 3 * t ^ 2 * (1 - t) * p2 + t ^ 3 * p3 := by
  simp only [cubicBezierCoord]
  ring

theorem cubic_at_zero (p0 p1 p2 p3 : ℚ) : cubicBezierCoord 0 p0 p1 p2 p3 = p0 := by
  simp only [cubicBezierCoord]
  ring

theorem cubic_at_one (p0 p1 p2 p3 : ℚ) : cubicBezierCoord 1 p0 p1 p2 p3 = p3 := by
  simp only [cubicBezierCoord]
  ring

theorem cubicX_lb (p1x p2x t : ℚ) (h1 : 0 ≤ p1x) (h2 : 0 ≤ p2x)
    (ht0 : 0 ≤ t) (ht1 : t ≤ 1) : t ^ 3 ≤ cubicBezierCoord t 0 p1x p2x 1 := by
  rw [cubic_bernstein]
  nlinarith [mul_nonneg (mul_nonneg (mul_nonneg (by norm_num : (0:ℚ) ≤ 3) ht0) (sq_nonneg (1 - t))) h1,
    mul_nonneg (mul_nonneg (mul_nonneg (by norm_num : (0:ℚ) ≤ 3) (sq_nonneg t)) (by linarith : (0:ℚ) ≤ 1 - t)) h2]

theorem cubicX_ub (p1x p2x t : ℚ) (h1 : p1x ≤ 1) (h2 : p2x ≤ 1)
    (ht0 : 0 ≤ t) (ht1 : t ≤ 1) :
    cubicBezierCoord t 0 p1x p2x 1 ≤ 1 - (1 - t) ^ 3 := by
  rw [cubic_bernstein]
  nlinarith [mul_nonneg (mul_nonneg (mul_nonneg (by norm_num : (0:ℚ) ≤ 3) ht0) (sq_nonneg (1 - t))) (by linarith : (0:ℚ) ≤ 1 - p1x),
    mul_nonneg (mul_nonneg (mul_nonneg (by norm_num : (0:ℚ) ≤ 3) (sq_nonneg t)) (by linarith : (0:ℚ) ≤ 1 - t)) (by linarith : (0:ℚ) ≤ 1 - p2x)]

theorem cubicX_le_seven (p1x p2x t : ℚ) (h1 : p1x ≤ 1) (h2 : p2x ≤ 1)
    (ht0 : 0 ≤ t) (ht1 : t ≤ 1) :
    cubicBezierCoord t 0 p1x p2x 1 ≤ 7 * t := by
  rw [cubic_bernstein]
  nlinarith [mul_nonneg (mul_nonneg (by norm_num : (0:ℚ) ≤ 3) ht0) (sq_nonneg (1 - t)),
    sq_nonneg t, sq_nonneg (1 - t), mul_nonneg ht0 ht0,
    mul_nonneg (mul_nonneg ht0 ht0) (by linarith : (0:ℚ) ≤ 1 - t),
    mul_nonneg (mul_nonneg (mul_nonneg ht0 ht0) ht0) (by linarith : (0:ℚ) ≤ 1 - t)]

theorem bisectStep_done (p1x p2x u : ℚ) (s : BisectState) (h : s.done = true) :
    bisectStep p1x p2x u s = s := by
  simp [bisectStep, h]

theorem bisectIter_done (p1x p2x u : ℚ) (n : ℕ) (s : BisectState) (h : s.done = true) :
    bisectIter p1x p2x u n s = s := by
  induction n with
  | zero => rfl
  | succ n ih => rw [bisectIter, bisectStep_done p1x p2x u s h]; exact ih

theorem bisectStep_break (p1x p2x u low high t0 : ℚ)
    (h : |cubicBezierCoord ((low + high) / 2) 0 p1x p2x 1 - u| < 1 / 10000) :
    bisectStep p1x p2x u ⟨low, high, t0, false⟩ = ⟨low, high, (low + high) / 2, true⟩ := by
  simp [bisectStep, h]
  intro hc
  linarith

theorem bisectStep_lt (p1x p2x u low high t0 : ℚ)
    (h1 : ¬ |cubicBezierCoord ((low + high) / 2) 0 p1x p2x 1 - u| < 1 / 10000)
    (h2 : cubicBezierCoord ((low + high) / 2) 0 p1x p2x 1 < u) :
    bisectStep p1x p2x u ⟨low, high, t0, false⟩ = ⟨(low + high) / 2, high, (low + high) / 2, false⟩ := by
  have h3 := not_lt.mp h1
  simp [bisectStep, h2]
  linarith

theorem bisectStep_ge (p1x p2x u low high t0 : ℚ)
    (h1 : ¬ |cubicBezierCoord ((low + high) / 2) 0 p1x p2x 1 - u| < 1 / 10000)
    (h2 : ¬ cubicBezierCoord ((low + high) / 2) 0 p1x p2x 1 < u) :
    bisectStep p1x p2x u ⟨low, high, t0, false⟩ = ⟨low, (low + high) / 2, (low + high) / 2, false⟩ := by
  have h3 := not_lt.mp h1
  simp [bisectStep, h2]
  linarith

theorem bisectStep_inv (p1x p2x u : ℚ) (s : BisectState) (h : BisectInv s) :
    BisectInv (bisectStep p1x p2x u s) := by
  obtain ⟨h0, h1, h2, h3, h4⟩ := h
  obtain ⟨low, high, t0, d⟩ := s
  simp only at h0 h1 h2 h3 h4
  cases d with
  | true => rw [bisectStep_done p1x p2x u _ rfl]; exact ⟨h0, h1, h2, h3, h4⟩
  | false =>
    by_cases hbr : |cubicBezierCoord ((low + high) / 2) 0 p1x p2x 1 - u| < 1 / 10000
    · rw [bisectStep_break p1x p2x u low high t0 hbr]
      refine ⟨h0, h1, h2, ?_, ?_⟩ <;> simp only <;> linarith
    · by_cases hlt : cubicBezierCoord ((low + high) / 2) 0 p1x p2x 1 < u
      · rw [bisectStep_lt p1x p2x u low high t0 hbr hlt]
        refine ⟨?_, ?_, ?_, ?_, ?_⟩ <;> simp only <;> linarith
      · rw [bisectStep_ge p1x p2x u low high t0 hbr hlt]
        refine ⟨?_, ?_, ?_, ?_, ?_⟩ <;> simp only <;> linarith

theorem bisectIter_inv (p1x p2x u : ℚ) (n : ℕ) :
    ∀ s : BisectState, BisectInv s → BisectInv (bisectIter p1x p2x u n s) := by
  induction n with
  | zero => intro s h; exact h
  | succ n ih => intro s h; rw [bisectIter]; exact ih _ (bisectStep_inv p1x p2x u s h)

theorem clamp01_mem (v : ℚ) : 0 ≤ clamp01 v ∧ clamp01 v ≤ 1 :=
  ⟨le_min (by norm_num) (le_max_left 0 v), min_le_left 1 _⟩

theorem clamp01_of_mem (v : ℚ) (h0 : 0 ≤ v) (h1 : v ≤ 1) : clamp01 v = v := by
  unfold clamp01
  rw [max_eq_right h0, min_eq_right h1]

theorem sampleBezierY_eq_cubic (u p1x p1y p2x p2y startY endY : ℚ) :
    ∃ t : ℚ, 0 ≤ t ∧ t ≤ 1 ∧
      sampleBezierY u p1x p1y p2x p2y startY endY = cubicBezierCoord t startY p1y p2y endY := by
  have hinv : BisectInv (bisectIter p1x p2x (clamp01 u) 24 ⟨0, 1, clamp01 u, false⟩) := by
    apply bisectIter_inv
    unfold BisectInv
    exact ⟨le_refl 0, by norm_num, by norm_num, (clamp01_mem u).1, (clamp01_mem u).2⟩
  unfold BisectInv at hinv
  exact ⟨solveT p1x p2x (clamp01 u), hinv.2.2.2.1, hinv.2.2.2.2, rfl⟩

/-- C9: the curve solver is total: for every rational input, including
degenerate control points that violate x-monotonicity, the fixed
24-iteration bisection returns a parameter in `[0,1]` and `sampleBezierY`
returns the Bezier y-value there — no crash, no divergence. -/
theorem sampleBezierY_total (u p1x p1y p2x p2y startY endY : ℚ) :
    ∃ t : ℚ, 0 ≤ t ∧ t ≤ 1 ∧
      sampleBezierY u p1x p1y p2x p2y startY endY = cubicBezierCoord t startY p1y p2y endY :=
  sampleBezierY_eq_cubic u p1x p1y p2x p2y startY endY

theorem cubic_mem_unit (t p0 p1 p2 p3 : ℚ) (ht0 : 0 ≤ t) (ht1 : t ≤ 1)
    (h0 : 0 ≤ p0) (h1 : p0 ≤ 1) (h2 : 0 ≤ p1) (h3 : p1 ≤ 1)
    (h4 : 0 ≤ p2) (h5 : p2 ≤ 1) (h6 : 0 ≤ p3) (h7 : p3 ≤ 1) :
    0 ≤ cubicBezierCoord t p0 p1 p2 p3 ∧ cubicBezierCoord t p0 p1 p2 p3 ≤ 1 := by
  rw [cubic_bernstein]
  have b0 : (0:ℚ) ≤ (1 - t) ^ 3 := pow_nonneg (by linarith) 3
  have b1 : (0:ℚ) ≤ 3 * t * (1 - t) ^ 2 :=
    mul_nonneg (mul_nonneg (by norm_num) ht0) (sq_nonneg _)
  have b2 : (0:ℚ) ≤ 3 * t ^ 2 * (1 - t) :=
    mul_nonneg (mul_nonneg (by norm_num) (sq_nonneg t)) (by linarith)
  have b3 : (0:ℚ) ≤ t ^ 3 := pow_nonneg ht0 3
  constructor
  · nlinarith [mul_nonneg b0 h0, mul_nonneg b1 h2, mul_nonneg b2 h4, mul_nonneg b3 h6]
  · nlinarith [mul_nonneg b0 (by linarith : (0:ℚ) ≤ 1 - p0),
      mul_nonneg b1 (by linarith : (0:ℚ) ≤ 1 - p1),
      mul_nonneg b2 (by linarith : (0:ℚ) ≤ 1 - p2),
      mul_nonneg b3 (by linarith : (0:ℚ) ≤ 1 - p3)]

/-- C10: with the four y-control values in `[0,1]` the solver output is in
`[0,1]` (the bisection parameter stays in `[0,1]` and the Bezier value is a
convex combination of the control values), hence whenever
`minScale ≤ maxScale` every generated LUT entry lies in
`[minScale, maxScale]`. -/
theorem scaleLUT_within_bounds (p1x p1y p2x p2y minScale maxScale : ℚ)
    (hy0 : 0 ≤ p1y) (hy1 : p1y ≤ 1) (hy2 : 0 ≤ p2y) (hy3 : p2y ≤ 1)
    (hms : minScale ≤ maxScale) :
    (∀ u startY endY : ℚ, 0 ≤ startY → startY ≤ 1 → 0 ≤ endY → endY ≤ 1 →
      0 ≤ sampleBezierY u p1x p1y p2x p2y startY endY ∧
        sampleBezierY u p1x p1y p2x p2y startY endY ≤ 1) ∧
    ∀ (isRev : Bool) (v : ℚ),
      v ∈ generateScaleLUT p1x p1y p2x p2y isRev minScale maxScale →
        minScale ≤ v ∧ v ≤ maxScale := by
  have key : ∀ u startY endY : ℚ, 0 ≤ startY → startY ≤ 1 → 0 ≤ endY → endY ≤ 1 →
      0 ≤ sampleBezierY u p1x p1y p2x p2y startY endY ∧
        sampleBezierY u p1x p1y p2x p2y startY endY ≤ 1 := by
    intro u sY eY hs0 hs1 he0 he1
    obtain ⟨t, ht0, ht1, heq⟩ := sampleBezierY_eq_cubic u p1x p1y p2x p2y sY eY
    rw [heq]
    exact cubic_mem_unit t sY p1y p2y eY ht0 ht1 hs0 hs1 hy0 hy1 hy2 hy3 he0 he1
  refine ⟨key, ?_⟩
  intro isRev v hv
  simp only [generateScaleLUT, List.mem_map, List.mem_range] at hv
  obtain ⟨i, hi, rfl⟩ := hv
  cases isRev with
  | false =>
    simp only [Bool.false_eq_true, if_false]
    obtain ⟨hval0, hval1⟩ :=
      key ((i : ℚ) / ((LUT_SIZE : ℚ) - 1)) 1 0 (by norm_num) (by norm_num) (by norm_num) (by norm_num)
    constructor <;> nlinarith
  | true =>
    simp only [if_true]
    obtain ⟨hval0, hval1⟩ :=
      key ((i : ℚ) / ((LUT_SIZE : ℚ) - 1)) 0 1 (by norm_num) (by norm_num) (by norm_num) (by norm_num)
    constructor <;> nlinarith

/-- C10 witness: concrete instance at the app defaults. -/
theorem scaleLUT_within_bounds_witness :
    0 ≤ sampleBezierY (1/2) (33/100) (4/5) (33/50) (1/5) 1 0 ∧
      sampleBezierY (1/2) (33/100) (4/5) (33/50) (1/5) 1 0 ≤ 1 :=
  (scaleLUT_within_bounds (33/100) (4/5) (33/50) (1/5) (3/100) 2
    (by norm_num) (by norm_num) (by norm_num) (by norm_num) (by norm_num)).1
    (1/2) 1 0 (by norm_num) (by norm_num) (by norm_num) (by norm_num)

/-- C2: for every grid element the instanced-variant output color is the
plain linear interpolation between the near tint and the far tint by the
same normalized distance `t` as the scale path (the scale LUT does not
appear); at `t = 0` it is exactly the near tint, at `t = 1` exactly the far
tint, and at `t = 1/2` the component-wise midpoint of `(1,0,0)` and
`(0,0,1)` is `(1/2, 0, 1/2)`. -/
theorem elementColor_linear_blend (pos : Vec3) (centers : List Vec3) (weights : List ℝ)
    (maxDist : ℝ) (near far : ColorRGB) :
    elementColor pos centers weights maxDist near far =
      ⟨(1 - normalizedT pos centers weights maxDist) * near.r +
          normalizedT pos centers weights maxDist * far.r,
        (1 - normalizedT pos centers weights maxDist) * near.g +
          normalizedT pos centers weights maxDist * far.g,
        (1 - normalizedT pos centers weights maxDist) * near.b +
          normalizedT pos centers weights maxDist * far.b⟩ ∧
    (normalizedT pos centers weights maxDist = 0 →
      elementColor pos centers weights maxDist near far = near) ∧
    (normalizedT pos centers weights maxDist = 1 →
      elementColor pos centers weights maxDist near far = far) ∧
    (normalizedT pos centers weights maxDist = 1/2 →
      elementColor pos centers weights maxDist ⟨1, 0, 0⟩ ⟨0, 0, 1⟩ = ⟨1/2, 0, 1/2⟩) := by
  refine ⟨?_, ?_, ?_, ?_⟩
  · simp only [elementColor, colorLerp, ColorRGB.mk.injEq]
    refine ⟨by ring, by ring, by ring⟩
  · intro h
    ext <;> simp [elementColor, colorLerp, h]
  · intro h
    ext <;> simp [elementColor, colorLerp, h]
  · intro h
    ext <;> simp [elementColor, colorLerp, h] <;> norm_num

/-- C2 witness: an element sitting exactly on a full-weight center gets
`t = 0` and therefore exactly the near tint. -/
theorem elementColor_linear_blend_witness :
    elementColor ⟨0, 0, 0⟩ [⟨0, 0, 0⟩] [1] 1 ⟨1, 0, 0⟩ ⟨0, 0, 1⟩ = ⟨1, 0, 0⟩ := by
  have ht : normalizedT ⟨0, 0, 0⟩ [⟨0, 0, 0⟩] [1] 1 = 0 := by
    have hd : dist3 ⟨0, 0, 0⟩ ⟨0, 0, 0⟩ = 0 := by
      simp [dist3]
    have hone : effectiveDist ⟨0, 0, 0⟩ [⟨0, 0, 0⟩] [1] = some 0 := by
      have hr : List.range (min (List.length [(⟨0, 0, 0⟩ : Vec3)]) MAX_ENGINE_CENTERS) = [0] := rfl
      rw [effectiveDist, hr, List.foldl_cons, List.foldl_nil]
      simp [distStep, hd]
      norm_num
    simp [normalizedT, hone]
  exact (elementColor_linear_blend ⟨0, 0, 0⟩ [⟨0, 0, 0⟩] [1] 1 ⟨1, 0, 0⟩ ⟨0, 0, 1⟩).2.1 ht

theorem weightAfter_one_sub (deltas : List ℝ) :
    ∀ w0 : ℝ, 1 - weightAfter w0 deltas = (1 - w0) * Real.exp (-(6 * deltas.sum)) := by
  induction deltas with
  | nil =>
    intro w0
    simp [weightAfter]
  | cons d ds ih =>
    intro w0
    have hstep : weightAfter w0 (d :: ds) = weightAfter (weightTick w0 1 d) ds := rfl
    rw [hstep, ih (weightTick w0 1 d), List.sum_cons]
    have hw : 1 - weightTick w0 1 d = (1 - w0) * Real.exp (-(6 * d)) := by
      unfold weightTick mathLerp
      rw [show -d * 6 = -(6 * d) by ring]
      ring
    rw [show -(6 * (d + ds.sum)) = -(6 * d) + -(6 * ds.sum) by ring, Real.exp_add, hw]
    ring

/-- C5: one smoothing tick keeps the weight inside `[0,1]` for any
target in `[0,1]` and `delta ≥ 0`; and starting from `weight = 0` chasing
target `1`, any tick sequence with nonnegative deltas accumulating at
least 5 time units lands within `1e-3` of `1`. -/
theorem weight_smoothing_props :
    (∀ w target delta : ℝ, 0 ≤ w → w ≤ 1 → 0 ≤ target → target ≤ 1 → 0 ≤ delta →
      0 ≤ weightTick w target delta ∧ weightTick w target delta ≤ 1) ∧
    (∀ deltas : List ℝ, (∀ d ∈ deltas, 0 ≤ d) → 5 ≤ deltas.sum →
      |weightAfter 0 deltas - 1| ≤ 1/1000) := by
  constructor
  · intro w target delta hw0 hw1 ht0 ht1 hd
    have he1 : Real.exp (-delta * 6) ≤ 1 := by
      rw [show (1:ℝ) = Real.exp 0 from (Real.exp_zero).symm]
      exact Real.exp_le_exp.mpr (by nlinarith)
    have he0 : 0 < Real.exp (-delta * 6) := Real.exp_pos _
    unfold weightTick mathLerp
    constructor
    · nlinarith [mul_nonneg he0.le hw0, mul_nonneg (sub_nonneg.mpr he1) ht0]
    · nlinarith [mul_nonneg (sub_nonneg.mpr hw1) he0.le,
        mul_nonneg (sub_nonneg.mpr ht1) (sub_nonneg.mpr he1)]
  · intro deltas hpos hsum
    have h := weightAfter_one_sub deltas 0
    norm_num at h
    have hx : weightAfter 0 deltas - 1 = -Real.exp (-(6 * deltas.sum)) := by linarith
    rw [hx, abs_neg, abs_of_pos (Real.exp_pos _)]
    have h1 : Real.exp (-(6 * deltas.sum)) ≤ Real.exp (-30 : ℝ) :=
      Real.exp_le_exp.mpr (by nlinarith)
    have h10 : (11:ℝ) ≤ Real.exp 10 := by nlinarith [Real.add_one_le_exp (10:ℝ)]
    have h30 : (1000:ℝ) ≤ Real.exp 30 := by
      have hE : Real.exp (30:ℝ) = Real.exp 10 * Real.exp 10 * Real.exp 10 := by
        rw [← Real.exp_add, ← Real.exp_add]
        norm_num
      rw [hE]
      nlinarith [Real.exp_pos (10:ℝ)]
    have h2 : Real.exp (-30 : ℝ) ≤ 1/1000 := by
      rw [Real.exp_neg]
      have := inv_le_inv_of_le (show (0:ℝ) < 1000 by norm_num) h30
      linarith
    linarith

/-- C5 witness: a single 5-unit tick from weight 0. -/
theorem weight_smoothing_witness :
    (0 ≤ weightTick 0 1 1 ∧ weightTick 0 1 1 ≤ 1) ∧
      |weightAfter 0 [(5:ℝ)] - 1| ≤ 1/1000 :=
  ⟨weight_smoothing_props.1 0 1 1 (by norm_num) (by norm_num) (by norm_num) (by norm_num) (by norm_num),
   weight_smoothing_props.2 [(5:ℝ)]
     (by intro d hd; rw [List.mem_singleton] at hd; rw [hd]; norm_num)
     (by simp)⟩

/-- C8: whenever the LUT index computed from the normalized distance is
negative, past the end of the table, or hits a zero (falsy) entry, the
distance-field scale falls back to `minScale`. -/
theorem elementScale_fallback (pos : Vec3) (centers : List Vec3) (weights : List ℝ)
    (maxDist : ℝ) (lut : List ℝ) (minScale : ℝ)
    (h : ⌊normalizedT pos centers weights maxDist * ((LUT_SIZE : ℝ) - 1)⌋ < 0 ∨
      lut.length ≤ (⌊normalizedT pos centers weights maxDist * ((LUT_SIZE : ℝ) - 1)⌋).toNat ∨
      lut.getD (⌊normalizedT pos centers weights maxDist * ((LUT_SIZE : ℝ) - 1)⌋).toNat 0 = 0) :
    elementScale pos centers weights maxDist lut minScale = minScale := by
  unfold elementScale lutScale
  rcases h with h | h | h
  · rw [if_neg]
    intro hc
    exact absurd hc.1 (not_le.mpr h)
  · rw [if_neg]
    intro hc
    exact absurd hc.2 (not_lt.mpr h)
  · by_cases hc : 0 ≤ ⌊normalizedT pos centers weights maxDist * ((LUT_SIZE : ℝ) - 1)⌋ ∧
        (⌊normalizedT pos centers weights maxDist * ((LUT_SIZE : ℝ) - 1)⌋).toNat < lut.length
    · rw [if_pos hc, if_pos h]
    · rw [if_neg hc]

/-- C8 witness: with no centers the index saturates at 255, which is out of
bounds for a one-entry LUT, so the scale is the fallback `minScale`. -/
theorem elementScale_fallback_witness :
    elementScale ⟨0, 0, 0⟩ [] [] 1 [(5:ℝ)] (3/100) = 3/100 := by
  have ht : normalizedT ⟨0, 0, 0⟩ [] [] 1 = 1 := by
    simp [normalizedT, effectiveDist, MAX_ENGINE_CENTERS]
  have hidx : ⌊normalizedT ⟨0, 0, 0⟩ [] [] 1 * ((LUT_SIZE : ℝ) - 1)⌋ = 255 := by
    rw [ht]
    norm_num [LUT_SIZE]
  apply elementScale_fallback
  right; left
  rw [hidx]
  norm_num

theorem mathLerp_amp_mem (amp r : ℝ) (h0 : 3/5 ≤ amp) (h1 : amp ≤ 7/5)
    (hr0 : 0 ≤ r) (hr1 : r ≤ 1) : 3/5 ≤ mathLerp 1 amp r ∧ mathLerp 1 amp r ≤ 7/5 := by
  unfold mathLerp
  constructor <;> nlinarith

theorem absTriple_le (s b aj k : ℝ) (hs : |s| ≤ 1) (hb : 0 ≤ b) (haj0 : 0 ≤ aj)
    (hajk : aj ≤ k) : |s * b * aj| ≤ k * b := by
  rw [abs_mul, abs_mul, abs_of_nonneg hb, abs_of_nonneg haj0]
  have h0 := abs_nonneg s
  nlinarith [mul_nonneg (mul_nonneg (sub_nonneg.mpr hs) haj0) hb,
    mul_nonneg (sub_nonneg.mpr hajk) hb]

theorem bisect_zero (p1x p2x : ℚ) (hx0 : 0 ≤ p1x) (hx1 : p1x ≤ 1)
    (hx2 : 0 ≤ p2x) (hx3 : p2x ≤ 1) :
    ∀ (n j : ℕ) (t0 : ℚ), 24 ≤ n + j → 0 ≤ t0 → t0 ≤ (1/2 : ℚ)^j →
      0 ≤ (bisectIter p1x p2x 0 n ⟨0, (1/2)^j, t0, false⟩).t ∧
      (bisectIter p1x p2x 0 n ⟨0, (1/2)^j, t0, false⟩).t ≤ 1/32 ∧
      cubicBezierCoord (bisectIter p1x p2x 0 n ⟨0, (1/2)^j, t0, false⟩).t 0 p1x p2x 1 < 1/10000 := by
  intro n
  induction n with
  | zero =>
    intro j t0 hnj ht0 ht1
    have hj : (1/2 : ℚ)^j ≤ (1/2 : ℚ)^24 := by
      apply pow_le_pow_of_le_one (by norm_num) (by norm_num)
      omega
    have ht24 : t0 ≤ (1/2 : ℚ)^24 := le_trans ht1 hj
    have hle1 : t0 ≤ 1 := le_trans ht1 (pow_le_one₀ (by norm_num) (by norm_num))
    have h7 : cubicBezierCoord t0 0 p1x p2x 1 ≤ 7 * t0 :=
      cubicX_le_seven p1x p2x t0 hx1 hx3 ht0 hle1
    refine ⟨ht0, ?_, ?_⟩
    · calc t0 ≤ (1/2 : ℚ)^24 := ht24
        _ ≤ 1/32 := by norm_num
    · calc cubicBezierCoord t0 0 p1x p2x 1 ≤ 7 * t0 := h7
        _ ≤ 7 * (1/2 : ℚ)^24 := by linarith
        _ < 1/10000 := by norm_num
  | succ n ih =>
    intro j t0 hnj ht0 ht1
    have hmid : ((0:ℚ) + (1/2)^j) / 2 = (1/2 : ℚ)^(j+1) := by
      rw [pow_succ]
      ring
    have hmid0 : (0:ℚ) < (1/2 : ℚ)^(j+1) := by positivity
    have hmid1 : (1/2 : ℚ)^(j+1) ≤ 1 := pow_le_one₀ (by norm_num) (by norm_num)
    have hXlb : ((1/2 : ℚ)^(j+1))^3 ≤ cubicBezierCoord ((1/2)^(j+1)) 0 p1x p2x 1 :=
      cubicX_lb p1x p2x _ hx0 hx2 hmid0.le hmid1
    have hXpos : 0 ≤ cubicBezierCoord ((1/2 : ℚ)^(j+1)) 0 p1x p2x 1 :=
      le_trans (by positivity) hXlb
    have hunf : bisectIter p1x p2x 0 (n+1) ⟨0, (1/2)^j, t0, false⟩ =
        bisectIter p1x p2x 0 n (bisectStep p1x p2x 0 ⟨0, (1/2)^j, t0, false⟩) := rfl
    by_cases hbr : |cubicBezierCoord (((0:ℚ) + (1/2)^j) / 2) 0 p1x p2x 1 - 0| < 1/10000
    · rw [hunf, bisectStep_break p1x p2x 0 _ _ _ hbr, bisectIter_done p1x p2x 0 n _ rfl, hmid]
      have hbr2 : cubicBezierCoord ((1/2 : ℚ)^(j+1)) 0 p1x p2x 1 < 1/10000 := by
        rw [hmid] at hbr
        rwa [sub_zero, abs_of_nonneg hXpos] at hbr
      have hle32 : (1/2 : ℚ)^(j+1) ≤ 1/32 := by
        by_contra hcon
        push_neg at hcon
        have hj4 : j + 1 ≤ 4 := by
          by_contra hj5
          push_neg at hj5
          have h5 : (1/2 : ℚ)^(j+1) ≤ (1/2 : ℚ)^5 :=
            pow_le_pow_of_le_one (by norm_num) (by norm_num) (by omega)
          norm_num at h5
          linarith
        have hge : (1/2 : ℚ)^4 ≤ (1/2 : ℚ)^(j+1) :=
          pow_le_pow_of_le_one (by norm_num) (by norm_num) hj4
        have hcube : ((1/2 : ℚ)^4)^3 ≤ ((1/2 : ℚ)^(j+1))^3 :=
          pow_le_pow_left₀ (by positivity) hge 3
        have hc := le_trans hcube hXlb
        norm_num at hc
        linarith
      exact ⟨hmid0.le, hle32, hbr2⟩
    · have hnlt : ¬ cubicBezierCoord (((0:ℚ) + (1/2)^j) / 2) 0 p1x p2x 1 < 0 := by
        rw [hmid]
        exact not_lt.mpr hXpos
      rw [hunf, bisectStep_ge p1x p2x 0 _ _ _ hbr hnlt, hmid]
      exact ih (j+1) ((1/2)^(j+1)) (by omega) hmid0.le le_rfl

theorem bisect_one (p1x p2x : ℚ) (hx0 : 0 ≤ p1x) (hx1 : p1x ≤ 1)
    (hx2 : 0 ≤ p2x) (hx3 : p2x ≤ 1) :
    ∀ (n j : ℕ) (t0 : ℚ), 24 ≤ n + j → 1 - (1/2 : ℚ)^j ≤ t0 → t0 ≤ 1 →
      31/32 ≤ (bisectIter p1x p2x 1 n ⟨1 - (1/2)^j, 1, t0, false⟩).t ∧
      (bisectIter p1x p2x 1 n ⟨1 - (1/2)^j, 1, t0, false⟩).t ≤ 1 ∧
      1 - 1/10000 < cubicBezierCoord (bisectIter p1x p2x 1 n ⟨1 - (1/2)^j, 1, t0, false⟩).t 0 p1x p2x 1 := by
  intro n
  induction n with
  | zero =>
    intro j t0 hnj ht0 ht1
    simp only [bisectIter]
    have hj : (1/2 : ℚ)^j ≤ (1/2 : ℚ)^24 := by
      apply pow_le_pow_of_le_one (by norm_num) (by norm_num)
      omega
    have ht24 : 1 - (1/2 : ℚ)^24 ≤ t0 := by linarith
    have ht00 : 0 ≤ t0 := by
      have : (1/2 : ℚ)^24 ≤ 1 := pow_le_one₀ (by norm_num) (by norm_num)
      linarith
    have hXlb : t0^3 ≤ cubicBezierCoord t0 0 p1x p2x 1 :=
      cubicX_lb p1x p2x t0 hx0 hx2 ht00 ht1
    have hcube : (1 - (1/2 : ℚ)^24)^3 ≤ t0^3 :=
      pow_le_pow_left₀ (by norm_num) ht24 3
    have h31 : (31:ℚ)/32 ≤ 1 - (1/2 : ℚ)^24 := by norm_num
    refine ⟨by linarith, ht1, ?_⟩
    have hbig : ((1:ℚ) - (1/2)^24)^3 > 1 - 1/10000 := by norm_num
    linarith
  | succ n ih =>
    intro j t0 hnj ht0 ht1
    have hmid : ((1 - (1/2 : ℚ)^j) + 1) / 2 = 1 - (1/2 : ℚ)^(j+1) := by
      rw [pow_succ]
      ring
    have hpow0 : (0:ℚ) < (1/2 : ℚ)^(j+1) := by positivity
    have hpow1 : (1/2 : ℚ)^(j+1) ≤ 1/2 := by
      calc (1/2 : ℚ)^(j+1) ≤ (1/2 : ℚ)^1 := pow_le_pow_of_le_one (by norm_num) (by norm_num) (by omega)
        _ = 1/2 := pow_one _
    have hmid0 : (0:ℚ) ≤ 1 - (1/2 : ℚ)^(j+1) := by linarith
    have hmid1 : 1 - (1/2 : ℚ)^(j+1) ≤ 1 := by linarith
    have hXub : cubicBezierCoord (1 - (1/2 : ℚ)^(j+1)) 0 p1x p2x 1 ≤
        1 - ((1/2 : ℚ)^(j+1))^3 := by
      have h := cubicX_ub p1x p2x (1 - (1/2 : ℚ)^(j+1)) hx1 hx3 hmid0 hmid1
      have he : (1 - (1 - (1/2 : ℚ)^(j+1)))^3 = ((1/2 : ℚ)^(j+1))^3 := by ring
      rw [he] at h
      exact h
    have hunf : bisectIter p1x p2x 1 (n+1) ⟨1 - (1/2)^j, 1, t0, false⟩ =
        bisectIter p1x p2x 1 n (bisectStep p1x p2x 1 ⟨1 - (1/2)^j, 1, t0, false⟩) := rfl
    by_cases hbr : |cubicBezierCoord (((1 - (1/2 : ℚ)^j) + 1) / 2) 0 p1x p2x 1 - 1| < 1/10000
    · rw [hunf, bisectStep_break p1x p2x 1 _ _ _ hbr, bisectIter_done p1x p2x 1 n _ rfl, hmid]
      have hXle1 : cubicBezierCoord (1 - (1/2 : ℚ)^(j+1)) 0 p1x p2x 1 ≤ 1 := by
        nlinarith [hXub, pow_pos hpow0 3]
      have hbr2 : 1 - 1/10000 < cubicBezierCoord (1 - (1/2 : ℚ)^(j+1)) 0 p1x p2x 1 := by
        rw [hmid] at hbr
        rw [abs_of_nonpos (by linarith)] at hbr
        linarith
      have hge : 31/32 ≤ 1 - (1/2 : ℚ)^(j+1) := by
        have hcube : ((1/2 : ℚ)^(j+1))^3 ≤ 1 - cubicBezierCoord (1 - (1/2 : ℚ)^(j+1)) 0 p1x p2x 1 := by
          linarith
        have hsmall : ((1/2 : ℚ)^(j+1))^3 < 1/10000 := by linarith
        have hle32 : (1/2 : ℚ)^(j+1) ≤ 1/32 := by
          by_contra hcon
          push_neg at hcon
          have hj4 : j + 1 ≤ 4 := by
            by_contra hj5
            push_neg at hj5
            have h5 : (1/2 : ℚ)^(j+1) ≤ (1/2 : ℚ)^5 :=
              pow_le_pow_of_le_one (by norm_num) (by norm_num) (by omega)
            norm_num at h5
            linarith
          have hgee : (1/2 : ℚ)^4 ≤ (1/2 : ℚ)^(j+1) :=
            pow_le_pow_of_le_one (by norm_num) (by norm_num) hj4
          have hcc : ((1/2 : ℚ)^4)^3 ≤ ((1/2 : ℚ)^(j+1))^3 :=
            pow_le_pow_left₀ (by positivity) hgee 3
          norm_num at hcc
          linarith
        linarith
      exact ⟨hge, hmid1, hbr2⟩
    · have hlt : cubicBezierCoord (((1 - (1/2 : ℚ)^j) + 1) / 2) 0 p1x p2x 1 < 1 := by
        rw [hmid]
        nlinarith [hXub, pow_pos hpow0 3]
      rw [hunf, bisectStep_lt p1x p2x 1 _ _ _ hbr hlt, hmid]
      exact ih (j+1) (1 - (1/2)^(j+1)) (by omega) le_rfl hmid1

theorem solveT_zero (p1x p2x : ℚ) (hx0 : 0 ≤ p1x) (hx1 : p1x ≤ 1)
    (hx2 : 0 ≤ p2x) (hx3 : p2x ≤ 1) :
    0 ≤ solveT p1x p2x 0 ∧ solveT p1x p2x 0 ≤ 1/32 ∧
      cubicBezierCoord (solveT p1x p2x 0) 0 p1x p2x 1 < 1/10000 := by
  have h := bisect_zero p1x p2x hx0 hx1 hx2 hx3 24 0 0 (by norm_num) le_rfl (by norm_num)
  rw [show ((1:ℚ)/2)^0 = 1 from pow_zero _] at h
  exact h

theorem solveT_one (p1x p2x : ℚ) (hx0 : 0 ≤ p1x) (hx1 : p1x ≤ 1)
    (hx2 : 0 ≤ p2x) (hx3 : p2x ≤ 1) :
    31/32 ≤ solveT p1x p2x 1 ∧ solveT p1x p2x 1 ≤ 1 ∧
      1 - 1/10000 < cubicBezierCoord (solveT p1x p2x 1) 0 p1x p2x 1 := by
  have h := bisect_one p1x p2x hx0 hx1 hx2 hx3 24 0 1 (by norm_num) (by norm_num) le_rfl
  rw [show (1:ℚ) - (1/2)^0 = 0 from by norm_num] at h
  exact h

theorem cubicY_near_start (t s e p1y p2y : ℚ) (ht0 : 0 ≤ t) (ht1 : t ≤ 1/32)
    (hs0 : 0 ≤ s) (hs1 : s ≤ 1) (he0 : 0 ≤ e) (he1 : e ≤ 1)
    (hy0 : 0 ≤ p1y) (hy1 : p1y ≤ 1) (hy2 : 0 ≤ p2y) (hy3 : p2y ≤ 1) :
    |cubicBezierCoord t s p1y p2y e - s| ≤ 1/10 := by
  have key : cubicBezierCoord t s p1y p2y e - s =
      3*t*(1-t)^2*(p1y - s) + 3*t^2*(1-t)*(p2y - s) + t^3*(e - s) := by
    simp only [cubicBezierCoord]
    ring
  have b1 : (0:ℚ) ≤ 3*t*(1-t)^2 :=
    mul_nonneg (mul_nonneg (by norm_num) ht0) (sq_nonneg _)
  have b2 : (0:ℚ) ≤ 3*t^2*(1-t) :=
    mul_nonneg (mul_nonneg (by norm_num) (sq_nonneg _)) (by linarith)
  have b3 : (0:ℚ) ≤ t^3 := pow_nonneg ht0 3
  have hcube : (0:ℚ) ≤ t^2*(3 - t) := mul_nonneg (sq_nonneg _) (by linarith)
  rw [key, abs_le]
  constructor
  · nlinarith [mul_nonneg b1 (by linarith : (0:ℚ) ≤ p1y - s + 1),
      mul_nonneg b2 (by linarith : (0:ℚ) ≤ p2y - s + 1),
      mul_nonneg b3 (by linarith : (0:ℚ) ≤ e - s + 1)]
  · nlinarith [mul_nonneg b1 (by linarith : (0:ℚ) ≤ 1 - (p1y - s)),
      mul_nonneg b2 (by linarith : (0:ℚ) ≤ 1 - (p2y - s)),
      mul_nonneg b3 (by linarith : (0:ℚ) ≤ 1 - (e - s))]

theorem cubicY_near_end (t s e p1y p2y : ℚ) (ht0 : 31/32 ≤ t) (ht1 : t ≤ 1)
    (hs0 : 0 ≤ s) (hs1 : s ≤ 1) (he0 : 0 ≤ e) (he1 : e ≤ 1)
    (hy0 : 0 ≤ p1y) (hy1 : p1y ≤ 1) (hy2 : 0 ≤ p2y) (hy3 : p2y ≤ 1) :
    |cubicBezierCoord t s p1y p2y e - e| ≤ 1/10 := by
  have key : cubicBezierCoord t s p1y p2y e - e =
      (1-t)^3*(s - e) + 3*t*(1-t)^2*(p1y - e) + 3*t^2*(1-t)*(p2y - e) := by
    simp only [cubicBezierCoord]
    ring
  have htpos : (0:ℚ) ≤ t := by linarith
  have b0 : (0:ℚ) ≤ (1-t)^3 := pow_nonneg (by linarith) 3
  have b1 : (0:ℚ) ≤ 3*t*(1-t)^2 :=
    mul_nonneg (mul_nonneg (by norm_num) htpos) (sq_nonneg _)
  have b2 : (0:ℚ) ≤ 3*t^2*(1-t) :=
    mul_nonneg (mul_nonneg (by norm_num) (sq_nonneg _)) (by linarith)
  have hq : (0:ℚ) ≤ (1 - t)*(2 - t - t^2) := by
    apply mul_nonneg (by linarith)
    nlinarith [mul_nonneg htpos htpos]
  rw [key, abs_le]
  constructor
  · nlinarith [mul_nonneg b0 (by linarith : (0:ℚ) ≤ s - e + 1),
      mul_nonneg b1 (by linarith : (0:ℚ) ≤ p1y - e + 1),
      mul_nonneg b2 (by linarith : (0:ℚ) ≤ p2y - e + 1)]
  · nlinarith [mul_nonneg b0 (by linarith : (0:ℚ) ≤ 1 - (s - e)),
      mul_nonneg b1 (by linarith : (0:ℚ) ≤ 1 - (p1y - e)),
      mul_nonneg b2 (by linarith : (0:ℚ) ≤ 1 - (p2y - e))]

theorem cubicX_lip (p1x p2x a b : ℚ) (hx0 : 0 ≤ p1x) (hx1 : p1x ≤ 1)
    (hx2 : 0 ≤ p2x) (hx3 : p2x ≤ 1) (ha : 0 ≤ a) (hab : a ≤ b) (hb : b ≤ 1) :
    cubicBezierCoord b 0 p1x p2x 1 - cubicBezierCoord a 0 p1x p2x 1 ≤ 21 * (b - a) := by
  have key : cubicBezierCoord b 0 p1x p2x 1 - cubicBezierCoord a 0 p1x p2x 1 =
      (b - a) * ((1 + 3*p1x - 3*p2x)*(a^2 + a*b + b^2) + (3*p2x - 6*p1x)*(a + b) + 3*p1x) := by
    simp only [cubicBezierCoord]
    ring
  rw [key]
  have hb0 : 0 ≤ b := le_trans ha hab
  have hS0 : (0:ℚ) ≤ a^2 + a*b + b^2 := by
    nlinarith [sq_nonneg a, sq_nonneg b, mul_nonneg ha hb0]
  have hS3 : a^2 + a*b + b^2 ≤ 3 := by
    nlinarith [mul_nonneg (by linarith : (0:ℚ) ≤ 1 - a) (by linarith : (0:ℚ) ≤ 1 + a),
      mul_nonneg (by linarith : (0:ℚ) ≤ 1 - b) (by linarith : (0:ℚ) ≤ 1 + b),
      mul_nonneg (by linarith : (0:ℚ) ≤ 1 - a) hb0]
  have hT0 : (0:ℚ) ≤ a + b := by linarith
  have hT2 : a + b ≤ 2 := by linarith
  have hbr : (1 + 3*p1x - 3*p2x)*(a^2 + a*b + b^2) + (3*p2x - 6*p1x)*(a + b) + 3*p1x ≤ 21 := by
    have h1 : (1 + 3*p1x - 3*p2x)*(a^2 + a*b + b^2) ≤ 4*(a^2 + a*b + b^2) := by
      nlinarith [mul_nonneg (by linarith : (0:ℚ) ≤ 3 - 3*p1x + 3*p2x) hS0]
    have h2 : (3*p2x - 6*p1x)*(a + b) ≤ 3*(a + b) := by
      nlinarith [mul_nonneg (by linarith : (0:ℚ) ≤ 3*p2x - 6*p1x + 6 - (3*p2x - 6*p1x)) hT0,
        mul_nonneg (by linarith : (0:ℚ) ≤ 3 - (3*p2x - 6*p1x)) hT0]
    linarith
  nlinarith [mul_nonneg (sub_nonneg.mpr hab) (sub_nonneg.mpr hbr)]

theorem bisect_interior (p1x p2x u : ℚ) (hx0 : 0 ≤ p1x) (hx1 : p1x ≤ 1)
    (hx2 : 0 ≤ p2x) (hx3 : p2x ≤ 1) :
    ∀ (n j : ℕ) (low t0 : ℚ), 17 ≤ n + j → 0 ≤ low → low + (1/2:ℚ)^j ≤ 1 →
      cubicBezierCoord low 0 p1x p2x 1 ≤ u - 1/10000 →
      u + 1/10000 ≤ cubicBezierCoord (low + (1/2)^j) 0 p1x p2x 1 →
      0 ≤ (bisectIter p1x p2x u n ⟨low, low + (1/2)^j, t0, false⟩).t ∧
      (bisectIter p1x p2x u n ⟨low, low + (1/2)^j, t0, false⟩).t ≤ 1 ∧
      |cubicBezierCoord (bisectIter p1x p2x u n ⟨low, low + (1/2)^j, t0, false⟩).t 0 p1x p2x 1 - u| <
        1/10000 := by
  intro n
  induction n with
  | zero =>
    intro j low t0 hnj h0 h1 hXl hXh
    exfalso
    have hj17 : 17 ≤ j := by omega
    have hpow : (1/2:ℚ)^j ≤ (1/2:ℚ)^17 :=
      pow_le_pow_of_le_one (by norm_num) (by norm_num) hj17
    have hpp : (0:ℚ) < (1/2:ℚ)^j := by positivity
    have hlip := cubicX_lip p1x p2x low (low + (1/2)^j) hx0 hx1 hx2 hx3 h0 (by linarith) h1
    have hsmall : (21:ℚ) * (1/2)^17 < 2/10000 := by norm_num
    nlinarith
  | succ n ih =>
    intro j low t0 hnj h0 h1 hXl hXh
    have hmid : (low + (low + (1/2:ℚ)^j)) / 2 = low + (1/2:ℚ)^(j+1) := by
      rw [pow_succ]
      ring
    have hsplit : low + (1/2:ℚ)^j = (low + (1/2:ℚ)^(j+1)) + (1/2:ℚ)^(j+1) := by
      rw [pow_succ]
      ring
    have hpp : (0:ℚ) < (1/2:ℚ)^(j+1) := by positivity
    have hmid0 : 0 ≤ low + (1/2:ℚ)^(j+1) := by linarith
    have hmid1 : low + (1/2:ℚ)^(j+1) ≤ 1 := by linarith [hsplit, h1, hpp]
    have hunf : bisectIter p1x p2x u (n+1) ⟨low, low + (1/2)^j, t0, false⟩ =
        bisectIter p1x p2x u n (bisectStep p1x p2x u ⟨low, low + (1/2)^j, t0, false⟩) := rfl
    by_cases hbr : |cubicBezierCoord ((low + (low + (1/2:ℚ)^j)) / 2) 0 p1x p2x 1 - u| < 1/10000
    · rw [hunf, bisectStep_break p1x p2x u _ _ _ hbr, bisectIter_done p1x p2x u n _ rfl, hmid]
      rw [hmid] at hbr
      exact ⟨hmid0, hmid1, hbr⟩
    · by_cases hlt : cubicBezierCoord ((low + (low + (1/2:ℚ)^j)) / 2) 0 p1x p2x 1 < u
      · rw [hunf, bisectStep_lt p1x p2x u _ _ _ hbr hlt, hmid]
        rw [hmid] at hbr hlt
        have hXmid : cubicBezierCoord (low + (1/2:ℚ)^(j+1)) 0 p1x p2x 1 ≤ u - 1/10000 := by
          rw [abs_of_neg (by linarith)] at hbr
          push_neg at hbr
          linarith
        rw [hsplit]
        exact ih (j+1) (low + (1/2)^(j+1)) (low + (1/2)^(j+1)) (by omega) hmid0
          (by linarith [hsplit]) hXmid (by rw [← hsplit]; exact hXh)
      · rw [hunf, bisectStep_ge p1x p2x u _ _ _ hbr hlt, hmid]
        rw [hmid] at hbr hlt
        push_neg at hlt
        have hXmid : u + 1/10000 ≤ cubicBezierCoord (low + (1/2:ℚ)^(j+1)) 0 p1x p2x 1 := by
          rw [abs_of_nonneg (by linarith)] at hbr
          push_neg at hbr
          linarith
        exact ih (j+1) low (low + (1/2)^(j+1)) (by omega) h0 hmid1 hXl hXmid

theorem solveT_interior (p1x p2x u : ℚ) (hx0 : 0 ≤ p1x) (hx1 : p1x ≤ 1)
    (hx2 : 0 ≤ p2x) (hx3 : p2x ≤ 1) (hu1 : 1/10000 ≤ u) (hu2 : u ≤ 1 - 1/10000) :
    0 ≤ solveT p1x p2x u ∧ solveT p1x p2x u ≤ 1 ∧
      |cubicBezierCoord (solveT p1x p2x u) 0 p1x p2x 1 - u| < 1/10000 := by
  have h := bisect_interior p1x p2x u hx0 hx1 hx2 hx3 24 0 0 u (by norm_num) le_rfl
    (by norm_num)
    (by rw [cubic_at_zero]; linarith)
    (by rw [show (0:ℚ) + (1/2)^0 = 1 from by norm_num, cubic_at_one]; linarith)
  rw [show (0:ℚ) + (1/2)^0 = 1 from by norm_num] at h
  exact h

theorem solveT_X_window (p1x p2x : ℚ) (hx0 : 0 ≤ p1x) (hx1 : p1x ≤ 1)
    (hx2 : 0 ≤ p2x) (hx3 : p2x ≤ 1) (i : ℕ) (hi : i ≤ 255) :
    0 ≤ solveT p1x p2x ((i:ℚ)/255) ∧ solveT p1x p2x ((i:ℚ)/255) ≤ 1 ∧
      cubicBezierCoord (solveT p1x p2x ((i:ℚ)/255)) 0 p1x p2x 1 < (i:ℚ)/255 + 1/10000 ∧
      (i:ℚ)/255 - 1/10000 < cubicBezierCoord (solveT p1x p2x ((i:ℚ)/255)) 0 p1x p2x 1 := by
  by_cases hz : i = 0
  · subst hz
    simp only [Nat.cast_zero, zero_div]
    obtain ⟨h1, h2, h3⟩ := solveT_zero p1x p2x hx0 hx1 hx2 hx3
    have hX0 : 0 ≤ cubicBezierCoord (solveT p1x p2x 0) 0 p1x p2x 1 := by
      have hlb := cubicX_lb p1x p2x _ hx0 hx2 h1 (by linarith)
      nlinarith [pow_nonneg h1 3]
    exact ⟨h1, by linarith, by linarith, by linarith⟩
  by_cases h255 : i = 255
  · subst h255
    rw [show ((255:ℕ):ℚ)/255 = 1 from by norm_num]
    obtain ⟨h1, h2, h3⟩ := solveT_one p1x p2x hx0 hx1 hx2 hx3
    have hXub : cubicBezierCoord (solveT p1x p2x 1) 0 p1x p2x 1 ≤ 1 := by
      have hub := cubicX_ub p1x p2x _ hx1 hx3 (by linarith) h2
      nlinarith [pow_nonneg (by linarith : (0:ℚ) ≤ 1 - solveT p1x p2x 1) 3]
    exact ⟨by linarith, h2, by linarith, by linarith⟩
  · have h1le : 1 ≤ i := Nat.one_le_iff_ne_zero.mpr hz
    have h254 : i ≤ 254 := by omega
    have hcast1 : (1:ℚ) ≤ (i:ℚ) := by exact_mod_cast h1le
    have hcast254 : (i:ℚ) ≤ 254 := by exact_mod_cast h254
    have hu1 : (1:ℚ)/10000 ≤ (i:ℚ)/255 := by
      rw [le_div_iff (by norm_num : (0:ℚ) < 255)]
      linarith
    have hu2 : (i:ℚ)/255 ≤ 1 - 1/10000 := by
      rw [div_le_iff (by norm_num : (0:ℚ) < 255)]
      linarith
    obtain ⟨h1, h2, h3⟩ := solveT_interior p1x p2x ((i:ℚ)/255) hx0 hx1 hx2 hx3 hu1 hu2
    obtain ⟨hlo, hhi⟩ := abs_lt.mp h3
    exact ⟨h1, h2, by linarith, by linarith⟩

theorem generateScaleLUT_getD (p1x p1y p2x p2y minScale maxScale : ℚ) (isRev : Bool)
    (i : ℕ) (hi : i < LUT_SIZE) :
    (generateScaleLUT p1x p1y p2x p2y isRev minScale maxScale).getD i 0 =
      minScale + sampleBezierY ((i:ℚ)/((LUT_SIZE:ℚ)-1)) p1x p1y p2x p2y
        (if isRev then 0 else 1) (if isRev then 1 else 0) * (maxScale - minScale) := by
  unfold generateScaleLUT
  rw [List.getD, List.get?_eq_getElem?, List.getElem?_map, List.getElem?_range hi]
  rfl

/-- C7: with x-monotone control points, the LUT entries are non-increasing
when the y-anchors fall from 1 to 0 (and non-decreasing in the reversed
case), provided the y-Bezier is monotone in the corresponding direction and
`minScale ≤ maxScale`. -/
theorem scaleLUT_monotone (p1x p1y p2x p2y minScale maxScale : ℚ)
    (hx0 : 0 ≤ p1x) (hx1 : p1x ≤ 1) (hx2 : 0 ≤ p2x) (hx3 : p2x ≤ 1)
    (hms : minScale ≤ maxScale)
    (hXmono : ∀ a b : ℚ, 0 ≤ a → a ≤ b → b ≤ 1 →
      cubicBezierCoord a 0 p1x p2x 1 ≤ cubicBezierCoord b 0 p1x p2x 1) :
    ((∀ a b : ℚ, 0 ≤ a → a ≤ b → b ≤ 1 →
        cubicBezierCoord b 1 p1y p2y 0 ≤ cubicBezierCoord a 1 p1y p2y 0) →
      ∀ i : ℕ, i + 1 < LUT_SIZE →
        (generateScaleLUT p1x p1y p2x p2y false minScale maxScale).getD (i+1) 0 ≤
        (generateScaleLUT p1x p1y p2x p2y false minScale maxScale).getD i 0) ∧
    ((∀ a b : ℚ, 0 ≤ a → a ≤ b → b ≤ 1 →
        cubicBezierCoord a 0 p1y p2y 1 ≤ cubicBezierCoord b 0 p1y p2y 1) →
      ∀ i : ℕ, i + 1 < LUT_SIZE →
        (generateScaleLUT p1x p1y p2x p2y true minScale maxScale).getD i 0 ≤
        (generateScaleLUT p1x p1y p2x p2y true minScale maxScale).getD (i+1) 0) := by
  have hclamp : ∀ i : ℕ, i ≤ 255 → clamp01 ((i:ℚ)/255) = (i:ℚ)/255 := by
    intro i hi
    apply clamp01_of_mem
    · positivity
    · rw [div_le_one (by norm_num)]
      exact_mod_cast hi
  have hmono : ∀ i : ℕ, i + 1 ≤ 255 →
      solveT p1x p2x ((i:ℚ)/255) ≤ solveT p1x p2x ((((i+1):ℕ):ℚ)/255) := by
    intro i hi
    obtain ⟨ha0, ha1, haU, haL⟩ := solveT_X_window p1x p2x hx0 hx1 hx2 hx3 i (by omega)
    obtain ⟨hb0, hb1, hbU, hbL⟩ := solveT_X_window p1x p2x hx0 hx1 hx2 hx3 (i+1) hi
    by_contra hcon
    push_neg at hcon
    have hle := hXmono _ _ hb0 hcon.le ha1
    have hgap : (((i+1):ℕ):ℚ)/255 - (i:ℚ)/255 = 1/255 := by
      push_cast
      ring
    have h255 : (2:ℚ)/10000 ≤ 1/255 := by norm_num
    linarith
  have hbounds : ∀ i : ℕ, i ≤ 255 →
      0 ≤ solveT p1x p2x ((i:ℚ)/255) ∧ solveT p1x p2x ((i:ℚ)/255) ≤ 1 := by
    intro i hi
    obtain ⟨h1, h2, _, _⟩ := solveT_X_window p1x p2x hx0 hx1 hx2 hx3 i hi
    exact ⟨h1, h2⟩
  have hLUT : ((LUT_SIZE:ℚ) - 1) = 255 := by norm_num [LUT_SIZE]
  constructor
  · intro hYanti i hi
    have hi255 : i + 1 ≤ 255 := by
      simp only [LUT_SIZE] at hi
      omega
    rw [generateScaleLUT_getD p1x p1y p2x p2y minScale maxScale false (i+1) (by simpa [LUT_SIZE] using hi),
      generateScaleLUT_getD p1x p1y p2x p2y minScale maxScale false i (by simp only [LUT_SIZE]; omega)]
    simp only [Bool.false_eq_true, if_false]
    unfold sampleBezierY
    rw [hLUT, hclamp i (by omega), hclamp (i+1) hi255]
    have ht := hmono i hi255
    obtain ⟨ha0, ha1⟩ := hbounds i (by omega)
    obtain ⟨hb0, hb1⟩ := hbounds (i+1) hi255
    have hY := hYanti (solveT p1x p2x ((i:ℚ)/255)) (solveT p1x p2x ((((i+1):ℕ):ℚ)/255))
      ha0 ht hb1
    nlinarith [mul_nonneg (sub_nonneg.mpr hY) (sub_nonneg.mpr hms)]
  · intro hYmono i hi
    have hi255 : i + 1 ≤ 255 := by
      simp only [LUT_SIZE] at hi
      omega
    rw [generateScaleLUT_getD p1x p1y p2x p2y minScale maxScale true (i+1) (by simpa [LUT_SIZE] using hi),
      generateScaleLUT_getD p1x p1y p2x p2y minScale maxScale true i (by simp only [LUT_SIZE]; omega)]
    simp only [if_true]
    unfold sampleBezierY
    rw [hLUT, hclamp i (by omega), hclamp (i+1) hi255]
    have ht := hmono i hi255
    obtain ⟨ha0, ha1⟩ := hbounds i (by omega)
    obtain ⟨hb0, hb1⟩ := hbounds (i+1) hi255
    have hY := hYmono (solveT p1x p2x ((i:ℚ)/255)) (solveT p1x p2x ((((i+1):ℕ):ℚ)/255))
      ha0 ht hb1
    nlinarith [mul_nonneg (sub_nonneg.mpr hY) (sub_nonneg.mpr hms)]

/-- C7 witness: the exactly linear curve `p1 = (1/3, 2/3)`, `p2 = (2/3, 1/3)`
(for which `X(t) = t` and `Y(t) = 1 - t`) gives a non-increasing table at
the first index pair. -/
theorem scaleLUT_monotone_witness :
    (generateScaleLUT (1/3) (2/3) (2/3) (1/3) false 0 1).getD 1 0 ≤
      (generateScaleLUT (1/3) (2/3) (2/3) (1/3) false 0 1).getD 0 0 := by
  have hX : ∀ c : ℚ, cubicBezierCoord c 0 (1/3) (2/3) 1 = c := by
    intro c
    simp only [cubicBezierCoord]
    ring
  have hY : ∀ c : ℚ, cubicBezierCoord c 1 (2/3) (1/3) 0 = 1 - c := by
    intro c
    simp only [cubicBezierCoord]
    ring
  exact (scaleLUT_monotone (1/3) (2/3) (2/3) (1/3) 0 1
    (by norm_num) (by norm_num) (by norm_num) (by norm_num) (by norm_num)
    (by intro a b h1 h2 h3; rw [hX, hX]; exact h2)).1
    (by intro a b h1 h2 h3; rw [hY, hY]; linarith)
    0 (by norm_num [LUT_SIZE])

/-- C6 counterexample: with the valid control points `p1 = (0, 0)`,
`p2 = (0.02, 0)` (gap exactly 0.02) and anchors `startY = 1, endY = 0`, the
solver at `u = 0` returns `(31/32)^3 ≈ 0.909` instead of `1`: the error
`≈ 0.0908` far exceeds the claimed `1e-3` tolerance. -/
theorem sampleBezierY_endpoint_miss :
    ¬ |sampleBezierY 0 0 0 (1/50) 0 1 0 - 1| ≤ 1/1000 := by
  have hit : ∀ (n : ℕ) (s : BisectState),
      bisectIter 0 (1/50) 0 (n+1) s = bisectIter 0 (1/50) 0 n (bisectStep 0 (1/50) 0 s) :=
    fun n s => rfl
  have step1 : bisectStep 0 (1/50) 0 ⟨0, 1, 0, false⟩ = ⟨0, 1/2, 1/2, false⟩ := by
    rw [bisectStep_ge 0 (1/50) 0 0 1 0
      (by rw [sub_zero, abs_of_pos (by norm_num [cubicBezierCoord])]; norm_num [cubicBezierCoord])
      (by norm_num [cubicBezierCoord])]
    norm_num
  have step2 : bisectStep 0 (1/50) 0 ⟨0, 1/2, 1/2, false⟩ = ⟨0, 1/4, 1/4, false⟩ := by
    rw [bisectStep_ge 0 (1/50) 0 0 (1/2) (1/2)
      (by rw [sub_zero, abs_of_pos (by norm_num [cubicBezierCoord])]; norm_num [cubicBezierCoord])
      (by norm_num [cubicBezierCoord])]
    norm_num
  have step3 : bisectStep 0 (1/50) 0 ⟨0, 1/4, 1/4, false⟩ = ⟨0, 1/8, 1/8, false⟩ := by
    rw [bisectStep_ge 0 (1/50) 0 0 (1/4) (1/4)
      (by rw [sub_zero, abs_of_pos (by norm_num [cubicBezierCoord])]; norm_num [cubicBezierCoord])
      (by norm_num [cubicBezierCoord])]
    norm_num
  have step4 : bisectStep 0 (1/50) 0 ⟨0, 1/8, 1/8, false⟩ = ⟨0, 1/16, 1/16, false⟩ := by
    rw [bisectStep_ge 0 (1/50) 0 0 (1/8) (1/8)
      (by rw [sub_zero, abs_of_pos (by norm_num [cubicBezierCoord])]; norm_num [cubicBezierCoord])
      (by norm_num [cubicBezierCoord])]
    norm_num
  have step5 : bisectStep 0 (1/50) 0 ⟨0, 1/16, 1/16, false⟩ = ⟨0, 1/16, 1/32, true⟩ := by
    rw [bisectStep_break 0 (1/50) 0 0 (1/16) (1/16)
      (by rw [sub_zero, abs_of_pos (by norm_num [cubicBezierCoord])]; norm_num [cubicBezierCoord])]
    norm_num
  have hsolve : solveT 0 (1/50) 0 = 1/32 := by
    unfold solveT
    rw [hit 23, step1, hit 22, step2, hit 21, step3, hit 20, step4, hit 19, step5,
      bisectIter_done 0 (1/50) 0 19 _ rfl]
  have hval : sampleBezierY 0 0 0 (1/50) 0 1 0 = 29791/32768 := by
    unfold sampleBezierY
    rw [clamp01_of_mem 0 le_rfl (by norm_num), hsolve]
    norm_num [cubicBezierCoord]
  rw [hval, show (29791:ℚ)/32768 - 1 = -(2977/32768) from by norm_num, abs_neg,
    abs_of_pos (by norm_num)]
  norm_num

/-- C6 (amended): for valid control points and anchors in `[0,1]` the
solver at `u = 0` returns `startY` and at `u = 1` returns `endY` within a
tolerance of `0.1` (the bisection's break threshold of `1e-4` on x lets the
returned parameter sit as far as `1/32` from the endpoint, so `1e-3`
accuracy is not guaranteed). -/
theorem sampleBezierY_endpoints (p1x p1y p2x p2y startY endY : ℚ)
    (hx0 : 0 ≤ p1x) (hx1 : p1x ≤ 1) (hx2 : 0 ≤ p2x) (hx3 : p2x ≤ 1)
    (hgap : p1x + 1/50 ≤ p2x)
    (hy0 : 0 ≤ p1y) (hy1 : p1y ≤ 1) (hy2 : 0 ≤ p2y) (hy3 : p2y ≤ 1)
    (hs0 : 0 ≤ startY) (hs1 : startY ≤ 1) (he0 : 0 ≤ endY) (he1 : endY ≤ 1) :
    |sampleBezierY 0 p1x p1y p2x p2y startY endY - startY| ≤ 1/10 ∧
    |sampleBezierY 1 p1x p1y p2x p2y startY endY - endY| ≤ 1/10 := by
  constructor
  · have hc : clamp01 (0:ℚ) = 0 := clamp01_of_mem 0 le_rfl (by norm_num)
    unfold sampleBezierY
    rw [hc]
    obtain ⟨h1, h2, h3⟩ := solveT_zero p1x p2x hx0 hx1 hx2 hx3
    exact cubicY_near_start _ startY endY p1y p2y h1 h2 hs0 hs1 he0 he1 hy0 hy1 hy2 hy3
  · have hc : clamp01 (1:ℚ) = 1 := clamp01_of_mem 1 (by norm_num) le_rfl
    unfold sampleBezierY
    rw [hc]
    obtain ⟨h1, h2, h3⟩ := solveT_one p1x p2x hx0 hx1 hx2 hx3
    exact cubicY_near_end _ startY endY p1y p2y h1 h2 hs0 hs1 he0 he1 hy0 hy1 hy2 hy3

/-- C6 witness: the app's default control points. -/
theorem sampleBezierY_endpoints_witness :
    |sampleBezierY 0 (33/100) (4/5) (33/50) (1/5) 1 0 - 1| ≤ 1/10 ∧
    |sampleBezierY 1 (33/100) (4/5) (33/50) (1/5) 1 0 - 0| ≤ 1/10 :=
  sampleBezierY_endpoints (33/100) (4/5) (33/50) (1/5) 1 0
    (by norm_num) (by norm_num) (by norm_num) (by norm_num) (by norm_num)
    (by norm_num) (by norm_num) (by norm_num) (by norm_num)
    (by norm_num) (by norm_num) (by norm_num) (by norm_num)

/-- C4 counterexample: at randomness 100 an amplitude jitter of 1.39
(legitimately seeded, since jitters live in `[0.6, 1.4)`) multiplies the
bound, so with phase `π/2` at time 0 the x-coordinate is
`7.2 × 1.39 = 10.008 > 7.2`, exceeding the claimed bound for
`boundScale = 1`. -/
theorem centerPosition_exceeds_bound :
    ¬ |(centerPosition 0 ⟨Real.pi/2, 0, 0, 139/100, 1, 1, 1, 1, 1⟩ 0 1 1).x| ≤
        GRID_SIZE * INITIAL_SPACING / 2 * 1 := by
  have hx : (centerPosition 0 ⟨Real.pi/2, 0, 0, 139/100, 1, 1, 1, 1, 1⟩ 0 1 1).x
      = 1251/125 := by
    simp only [centerPosition]
    norm_num [mathLerp, GRID_SIZE, INITIAL_SPACING, Real.sin_pi_div_two]
  rw [hx]
  unfold GRID_SIZE INITIAL_SPACING
  rw [abs_of_pos (by norm_num)]
  norm_num

/-- C4 (amended): with amplitude jitters in `[0.6, 1.4]` and smoothed
randomness in `[0,1]`, every focal-center coordinate is bounded by
`1.4 × bound` (bound = grid half-extent × boundScale); at randomness 0 the
original `≤ bound` containment does hold. -/
theorem centerPosition_bounded (i : ℕ) (ph : PhaseData) (t randNorm boundScale : ℝ)
    (hr0 : 0 ≤ randNorm) (hr1 : randNorm ≤ 1)
    (hax0 : 3/5 ≤ ph.ampX) (hax1 : ph.ampX ≤ 7/5)
    (hay0 : 3/5 ≤ ph.ampY) (hay1 : ph.ampY ≤ 7/5)
    (haz0 : 3/5 ≤ ph.ampZ) (haz1 : ph.ampZ ≤ 7/5)
    (hb : 0 ≤ boundScale) :
    (|(centerPosition i ph t randNorm boundScale).x| ≤
        7/5 * (GRID_SIZE * INITIAL_SPACING / 2 * boundScale) ∧
      |(centerPosition i ph t randNorm boundScale).y| ≤
        7/5 * (GRID_SIZE * INITIAL_SPACING / 2 * boundScale) ∧
      |(centerPosition i ph t randNorm boundScale).z| ≤
        7/5 * (GRID_SIZE * INITIAL_SPACING / 2 * boundScale)) ∧
    (randNorm = 0 →
      |(centerPosition i ph t randNorm boundScale).x| ≤
        GRID_SIZE * INITIAL_SPACING / 2 * boundScale ∧
      |(centerPosition i ph t randNorm boundScale).y| ≤
        GRID_SIZE * INITIAL_SPACING / 2 * boundScale ∧
      |(centerPosition i ph t randNorm boundScale).z| ≤
        GRID_SIZE * INITIAL_SPACING / 2 * boundScale) := by
  have hbound : 0 ≤ GRID_SIZE * INITIAL_SPACING / 2 * boundScale := by
    unfold GRID_SIZE INITIAL_SPACING
    nlinarith
  have hampX := mathLerp_amp_mem ph.ampX randNorm hax0 hax1 hr0 hr1
  have hampY := mathLerp_amp_mem ph.ampY randNorm hay0 hay1 hr0 hr1
  have hampZ := mathLerp_amp_mem ph.ampZ randNorm haz0 haz1 hr0 hr1
  constructor
  · refine ⟨?_, ?_, ?_⟩
    · simp only [centerPosition]
      exact absTriple_le _ _ _ _ (abs_le.mpr ⟨Real.neg_one_le_sin _, Real.sin_le_one _⟩) hbound (by linarith [hampX.1]) hampX.2
    · simp only [centerPosition]
      rw [show Real.sin (t * 0.2 * ((1.35 + (i : ℝ) * 0.1) * mathLerp 1 ph.freqY randNorm) + ph.py) *
            (GRID_SIZE * INITIAL_SPACING / 2 * boundScale) * 0.85 * mathLerp 1 ph.ampY randNorm =
          Real.sin (t * 0.2 * ((1.35 + (i : ℝ) * 0.1) * mathLerp 1 ph.freqY randNorm) + ph.py) *
            (GRID_SIZE * INITIAL_SPACING / 2 * boundScale * 0.85) * mathLerp 1 ph.ampY randNorm
          from by ring]
      have h85 : (0:ℝ) ≤ GRID_SIZE * INITIAL_SPACING / 2 * boundScale * 0.85 := by nlinarith
      have := absTriple_le
        (Real.sin (t * 0.2 * ((1.35 + (i : ℝ) * 0.1) * mathLerp 1 ph.freqY randNorm) + ph.py))
        (GRID_SIZE * INITIAL_SPACING / 2 * boundScale * 0.85) (mathLerp 1 ph.ampY randNorm) (7/5)
        (abs_le.mpr ⟨Real.neg_one_le_sin _, Real.sin_le_one _⟩) h85 (by linarith [hampY.1]) hampY.2
      linarith
    · simp only [centerPosition]
      exact absTriple_le _ _ _ _ (abs_le.mpr ⟨Real.neg_one_le_cos _, Real.cos_le_one _⟩) hbound (by linarith [hampZ.1]) hampZ.2
  · intro hzero
    subst hzero
    have hone : ∀ a : ℝ, mathLerp 1 a 0 = 1 := by
      intro a
      unfold mathLerp
      ring
    refine ⟨?_, ?_, ?_⟩
    · simp only [centerPosition, hone]
      have := absTriple_le (Real.sin (t * 0.2 * ((1.0 + (i : ℝ) * 0.1) * 1) + ph.px))
        (GRID_SIZE * INITIAL_SPACING / 2 * boundScale) 1 1 (abs_le.mpr ⟨Real.neg_one_le_sin _, Real.sin_le_one _⟩) hbound
        (by norm_num) (by norm_num)
      linarith [this]
    · simp only [centerPosition, hone]
      rw [show Real.sin (t * 0.2 * ((1.35 + (i : ℝ) * 0.1) * 1) + ph.py) *
            (GRID_SIZE * INITIAL_SPACING / 2 * boundScale) * 0.85 * 1 =
          Real.sin (t * 0.2 * ((1.35 + (i : ℝ) * 0.1) * 1) + ph.py) *
            (GRID_SIZE * INITIAL_SPACING / 2 * boundScale * 0.85) * 1
          from by ring]
      have h85 : (0:ℝ) ≤ GRID_SIZE * INITIAL_SPACING / 2 * boundScale * 0.85 := by nlinarith
      have := absTriple_le
        (Real.sin (t * 0.2 * ((1.35 + (i : ℝ) * 0.1) * 1) + ph.py))
        (GRID_SIZE * INITIAL_SPACING / 2 * boundScale * 0.85) 1 1
        (abs_le.mpr ⟨Real.neg_one_le_sin _, Real.sin_le_one _⟩) h85 (by norm_num) (by norm_num)
      linarith [this]
    · simp only [centerPosition, hone]
      have := absTriple_le (Real.cos (t * 0.2 * ((0.8 + (i : ℝ) * 0.08) * 1) + ph.pz))
        (GRID_SIZE * INITIAL_SPACING / 2 * boundScale) 1 1 (abs_le.mpr ⟨Real.neg_one_le_cos _, Real.cos_le_one _⟩) hbound
        (by norm_num) (by norm_num)
      linarith [this]

theorem ominO_none (x : Option ℝ) : ominO none x = x := by
  cases x <;> rfl

theorem ominO_assoc (a b c : Option ℝ) : ominO (ominO a b) c = ominO a (ominO b c) := by
  cases a <;> cases b <;> cases c <;> simp [ominO, min_assoc]

theorem listMinR_cons (d : ℝ) (rest : List ℝ) :
    listMinR (d :: rest) = ominO (some d) (listMinR rest) := by
  rw [listMinR]
  cases h : listMinR rest <;> simp [ominO, h]

theorem ominO_none_right (a : Option ℝ) : ominO a none = a := by
  cases a <;> rfl

theorem pairStep_skip (pos : Vec3) (acc : Option ℝ) (cw : Vec3 × ℝ) (h : cw.2 < 1/1000) :
    pairStep pos acc cw = acc := by
  simp only [pairStep]
  rw [if_pos h]

theorem pairStep_keep (pos : Vec3) (acc : Option ℝ) (cw : Vec3 × ℝ) (h : ¬ cw.2 < 1/1000) :
    pairStep pos acc cw = ominO acc (some (dist3 pos cw.1 / cw.2)) := by
  cases acc with
  | none =>
    simp only [pairStep]
    rw [if_neg h, ominO_none]
  | some d0 =>
    simp only [pairStep, if_neg h, ominO]
    split_ifs with h2
    · rw [min_eq_right h2.le]
    · rw [min_eq_left (not_lt.mp h2)]

theorem foldl_range_eq_zip (pos : Vec3) :
    ∀ (cs : List Vec3) (ws : List ℝ), ws.length = cs.length → ∀ acc : Option ℝ,
      (List.range cs.length).foldl (distStep pos cs ws) acc =
        (cs.zip ws).foldl (pairStep pos) acc := by
  intro cs
  induction cs with
  | nil =>
    intro ws hlen acc
    simp
  | cons c cs ih =>
    intro ws hlen acc
    cases ws with
    | nil => simp at hlen
    | cons w ws =>
      simp only [List.length_cons, Nat.succ.injEq] at hlen
      rw [List.length_cons, List.range_succ_eq_map, List.foldl_cons, List.foldl_map,
        List.zip_cons_cons, List.foldl_cons]
      have hhead : distStep pos (c :: cs) (w :: ws) acc 0 = pairStep pos acc (c, w) := by
        simp [distStep, pairStep]
      have hfun : ∀ (a : Option ℝ), ∀ i ∈ List.range cs.length,
          distStep pos (c :: cs) (w :: ws) a (Nat.succ i) = distStep pos cs ws a i := by
        intro a i hi
        simp [distStep, List.getD_cons_succ]
      have hext := List.foldl_ext (fun x (y : ℕ) => distStep pos (c :: cs) (w :: ws) x y.succ)
        (distStep pos cs ws) (pairStep pos acc (c, w)) hfun
      rw [hhead, hext]
      exact ih ws hlen (pairStep pos acc (c, w))

theorem foldl_pairStep_min (pos : Vec3) :
    ∀ (l : List (Vec3 × ℝ)) (acc : Option ℝ),
      l.foldl (pairStep pos) acc = ominO acc (specEffectiveDist pos l) := by
  intro l
  induction l with
  | nil =>
    intro acc
    simp only [List.foldl_nil, specEffectiveDist, List.filter_nil, List.map_nil]
    rw [show listMinR [] = none from rfl, ominO_none_right]
  | cons cw l ih =>
    intro acc
    rw [List.foldl_cons]
    by_cases hw : cw.2 < 1/1000
    · rw [pairStep_skip pos acc cw hw, ih]
      have hfil : specEffectiveDist pos (cw :: l) = specEffectiveDist pos l := by
        unfold specEffectiveDist
        rw [List.filter_cons_of_neg (by simpa using not_le.mpr hw)]
      rw [hfil]
    · rw [pairStep_keep pos acc cw hw, ih]
      have hfil : specEffectiveDist pos (cw :: l) =
          ominO (some (dist3 pos cw.1 / cw.2)) (specEffectiveDist pos l) := by
        unfold specEffectiveDist
        rw [List.filter_cons_of_pos (by simpa using not_lt.mp hw), List.map_cons, listMinR_cons]
      rw [hfil, ominO_assoc]

/-- C1: the effective distance of the source loop is exactly the minimum,
over the centers whose weight is at least the epsilon 0.001, of the
Euclidean distance divided by the center weight; the normalized distance is
`min 1 (d / maxDist)` (saturating at 1 when no center qualifies), and the
element scale is read from the LUT at index `floor(t * (LUT_SIZE - 1))`. -/
theorem effectiveDist_matches_spec (pos : Vec3) (centers : List Vec3) (weights : List ℝ)
    (maxDist : ℝ) (lut : List ℝ) (minScale : ℝ)
    (hlen : weights.length = centers.length) (hcap : centers.length ≤ MAX_ENGINE_CENTERS) :
    effectiveDist pos centers weights = specEffectiveDist pos (centers.zip weights) ∧
    normalizedT pos centers weights maxDist =
      (match specEffectiveDist pos (centers.zip weights) with
        | none => 1
        | some d => min 1 (d / maxDist)) ∧
    elementScale pos centers weights maxDist lut minScale =
      lutScale lut minScale ⌊normalizedT pos centers weights maxDist * ((LUT_SIZE : ℝ) - 1)⌋ := by
  have h1 : effectiveDist pos centers weights = specEffectiveDist pos (centers.zip weights) := by
    unfold effectiveDist
    rw [min_eq_left hcap, foldl_range_eq_zip pos centers weights hlen none,
      foldl_pairStep_min pos (centers.zip weights) none, ominO_none]
  refine ⟨h1, ?_, rfl⟩
  unfold normalizedT
  rw [h1]

/-- C1 witness: one full-weight center. -/
theorem effectiveDist_matches_spec_witness :
    effectiveDist ⟨0, 0, 0⟩ [⟨3, 0, 0⟩] [(1:ℝ)] =
      specEffectiveDist ⟨0, 0, 0⟩ ([⟨3, 0, 0⟩].zip [(1:ℝ)]) :=
  (effectiveDist_matches_spec ⟨0, 0, 0⟩ [⟨3, 0, 0⟩] [(1:ℝ)] 1 [] 0 rfl
    (by norm_num [MAX_ENGINE_CENTERS])).1

theorem foldl_distStep_skip (pos : Vec3) (centers : List Vec3) (weights : List ℝ) :
    ∀ (idxs : List ℕ) (acc : Option ℝ), (∀ c ∈ idxs, weights.getD c 1 < 1/1000) →
      idxs.foldl (distStep pos centers weights) acc = acc := by
  intro idxs
  induction idxs with
  | nil => intro acc h; rfl
  | cons c idxs ih =>
    intro acc h
    rw [List.foldl_cons]
    have hc : weights.getD c 1 < 1/1000 := h c (List.mem_cons_self c idxs)
    have hstep : distStep pos centers weights acc c = acc := by
      simp only [distStep]
      rw [if_pos hc]
    rw [hstep]
    exact ih acc (fun i hi => h i (List.mem_cons_of_mem c hi))

/-- C3: when no considered center has weight at or above 0.001 the fold
never updates the `Infinity` sentinel, so `t = 1`, the scale is
`lut[LUT_SIZE-1]` (or `minScale` if that entry is zero), and the color is
exactly the far tint. -/
theorem distanceField_degenerate (pos : Vec3) (centers : List Vec3) (weights : List ℝ)
    (maxDist : ℝ) (lut : List ℝ) (minScale : ℝ) (near far : ColorRGB)
    (hw : ∀ c < min centers.length MAX_ENGINE_CENTERS, weights.getD c 1 < 1/1000)
    (hlut : lut.length = LUT_SIZE) :
    normalizedT pos centers weights maxDist = 1 ∧
    elementScale pos centers weights maxDist lut minScale =
      (if lut.getD (LUT_SIZE - 1) 0 = 0 then minScale else lut.getD (LUT_SIZE - 1) 0) ∧
    elementColor pos centers weights maxDist near far = far := by
  have hnone : effectiveDist pos centers weights = none := by
    unfold effectiveDist
    exact foldl_distStep_skip pos centers weights _ none
      (fun c hc => hw c (List.mem_range.mp hc))
  have ht : normalizedT pos centers weights maxDist = 1 := by
    unfold normalizedT
    rw [hnone]
  refine ⟨ht, ?_, ?_⟩
  · unfold elementScale
    rw [ht]
    have hidx : ⌊(1:ℝ) * ((LUT_SIZE : ℝ) - 1)⌋ = 255 := by
      norm_num [LUT_SIZE]
    rw [hidx]
    unfold lutScale
    have hcond : (0:ℤ) ≤ 255 ∧ ((255:ℤ)).toNat < lut.length := by
      refine ⟨by norm_num, ?_⟩
      rw [hlut]
      norm_num [LUT_SIZE]
    rw [if_pos hcond]
    have h255 : Int.toNat 255 = LUT_SIZE - 1 := rfl
    rw [h255]
  · unfold elementColor
    rw [ht]
    ext <;> (simp [colorLerp]; try ring)

/-- C3 witness: a single center of weight 0 and an all-ones LUT. -/
theorem distanceField_degenerate_witness :
    normalizedT ⟨0, 0, 0⟩ [⟨0, 0, 0⟩] [(0:ℝ)] 5 = 1 ∧
    elementScale ⟨0, 0, 0⟩ [⟨0, 0, 0⟩] [(0:ℝ)] 5 (List.replicate 256 (1:ℝ)) (3/100) = 1 ∧
    elementColor ⟨0, 0, 0⟩ [⟨0, 0, 0⟩] [(0:ℝ)] 5 ⟨1, 0, 0⟩ ⟨0, 0, 1⟩ = ⟨0, 0, 1⟩ := by
  have h := distanceField_degenerate ⟨0, 0, 0⟩ [⟨0, 0, 0⟩] [(0:ℝ)] 5
    (List.replicate 256 (1:ℝ)) (3/100) ⟨1, 0, 0⟩ ⟨0, 0, 1⟩
    (by
      intro c hc
      simp only [List.length_singleton, MAX_ENGINE_CENTERS] at hc
      have hc0 : c = 0 := by omega
      subst hc0
      norm_num [List.getD])
    (by rw [List.length_replicate]; rfl)
  refine ⟨h.1, ?_, h.2.2⟩
  rw [h.2.1]
  have hget : (List.replicate 256 (1:ℝ)).getD (LUT_SIZE - 1) 0 = 1 := by
    rw [List.getD, List.get?_eq_getElem?, List.getElem?_replicate]
    norm_num [LUT_SIZE]
  rw [hget]
  norm_num

/-- C4 witness: at randomness 0 with unit jitters the x-coordinate stays
within the bound. -/
theorem centerPosition_bounded_witness :
    |(centerPosition 0 ⟨0, 0, 0, 1, 1, 1, 1, 1, 1⟩ 0 0 1).x| ≤
      GRID_SIZE * INITIAL_SPACING / 2 * 1 :=
  ((centerPosition_bounded 0 ⟨0, 0, 0, 1, 1, 1, 1, 1, 1⟩ 0 0 1 (by norm_num) (by norm_num)
    (by norm_num) (by norm_num) (by norm_num) (by norm_num) (by norm_num) (by norm_num)
    (by norm_num)).2 rfl).1

end PBH
